import Mathlib

/-!
Verification of the panic-context library (`src/lib.rs`).

The library keeps, per thread, a `Values` record holding a fresh-id counter
and a `BTreeMap<usize, String>` of live context entries.  A process-wide
panic hook prints the header `"Panic context:"` followed by every stored
value (in ascending key order, as `BTreeMap` iteration guarantees) and then
delegates to the previously installed hook.

We model the `BTreeMap<usize, String>` as an association list ordered by
strictly increasing key; `btreeInsert` / `btreeRemove` / `btreeLookup`
mirror `insert` / `remove` / lookup, and iteration order is the list order.
-/

/-- Model of `BTreeMap::insert`: ordered insert that overwrites an existing
key in place.  On key-sorted lists this reproduces the map semantics and the
ascending-key iteration order of `BTreeMap`. -/
def btreeInsert : List (Nat × String) → Nat → String → List (Nat × String)
  | [], k, v => [(k, v)]
  | (k', v') :: rest, k, v =>
    if k < k' then (k, v) :: (k', v') :: rest
    else if k = k' then (k, v) :: rest
    else (k', v') :: btreeInsert rest k v

/-- Model of `BTreeMap::remove`: deletes the entry with the given key if
present, otherwise leaves the list unchanged. -/
def btreeRemove : List (Nat × String) → Nat → List (Nat × String)
  | [], _ => []
  | (k', v') :: rest, k =>
    if k = k' then rest else (k', v') :: btreeRemove rest k

/-- Model of `BTreeMap` lookup (`get`). -/
def btreeLookup : List (Nat × String) → Nat → Option String
  | [], _ => none
  | (k', v') :: rest, k => if k = k' then some v' else btreeLookup rest k

/-- The thread-local state `Values { next_id, values }` from the source. -/
structure Values where
  next_id : Nat
  values : List (Nat × String)
deriving DecidableEq, Repr

/-- The initial thread-local state: `next_id: 0, values: BTreeMap::new()`. -/
def initialValues : Values := { next_id := 0, values := [] }

/-- Well-formedness of a thread store: keys appear in strictly increasing
order (the `BTreeMap` iteration invariant) and every key was allocated
before the current counter value. -/
def Values.WF (s : Values) : Prop :=
  s.values.Pairwise (fun a b => a.1 < b.1) ∧ ∀ kv ∈ s.values, kv.1 < s.next_id

/-- `fn add_entry(value: Option<String>) -> usize`: takes the next id,
bumps the counter, inserts `(id, v)` only when a value is supplied, and
returns the id. -/
def add_entry (s : Values) (value : Option String) : Nat × Values :=
  let id := s.next_id
  (id, { next_id := id + 1,
         values := match value with
                   | some v => btreeInsert s.values id v
                   | none => s.values })

/-- `fn update_entry(id: usize, value: String)`: inserts or overwrites the
entry at `id`. -/
def update_entry (s : Values) (id : Nat) (value : String) : Values :=
  { s with values := btreeInsert s.values id value }

/-- `struct UpdatablePanicContext { id, prefix }` (the prefix field is
named `pfx` here). -/
structure UpdatablePanicContext where
  id : Nat
  pfx : String
deriving DecidableEq, Repr

/-- `UpdatablePanicContext::new(prefix)`: allocates an id via
`add_entry(None)` — no map entry is created. -/
def UpdatablePanicContext.new (s : Values) (pfx : String) :
    UpdatablePanicContext × Values :=
  let r := add_entry s none
  ({ id := r.1, pfx := pfx }, r.2)

/-- `UpdatablePanicContext::update(value)`: stores `prefix + value` at the
handle's id. -/
def UpdatablePanicContext.update (c : UpdatablePanicContext) (s : Values)
    (value : String) : Values :=
  update_entry s c.id (c.pfx ++ value)

/-- `UpdatablePanicContext` has no `Drop` implementation in the source, so
going out of scope leaves the thread store untouched. -/
def UpdatablePanicContext.dropHandle (_ : UpdatablePanicContext)
    (s : Values) : Values := s

/-- `struct PanicContext { id }`. -/
structure PanicContext where
  id : Nat
deriving DecidableEq, Repr

/-- `PanicContext::new(msg)`: takes the next id, bumps the counter and
inserts `(id, msg)` into the map. -/
def PanicContext.new (s : Values) (msg : String) : PanicContext × Values :=
  let id := s.next_id
  ({ id := id }, { next_id := id + 1, values := btreeInsert s.values id msg })

/-- `impl Drop for PanicContext`: removes the handle's entry from the map. -/
def PanicContext.dropHandle (c : PanicContext) (s : Values) : Values :=
  { s with values := btreeRemove s.values c.id }

/-- The stderr text produced by the hook body in `init` when every write
succeeds: the loop `for (_, value) in traces.values.iter()` appends
`value` then `"\n"` to the output, starting after the header write. -/
def dumpString (s : Values) : String :=
  s.values.foldl (fun acc kv => acc ++ kv.2 ++ "\n") "Panic context:\n"

/-- The whole stderr text of the installed hook: the dump, then whatever
the previously captured hook prints (`previous_hook(info)` runs last). -/
def hookOutput (s : Values) (previousReport : String) : String :=
  dumpString s ++ previousReport

/-- Spec-shaped dump output (§4.4 / §6 of the spec): the fixed header line,
then each entry text on its own line, then the delegated report. -/
def specDumpOutput (texts : List String) (previousReport : String) : String :=
  "Panic context:\n" ++ texts.foldr (fun t r => t ++ "\n" ++ r) "" ++ previousReport

/-- Iteration order of a well-formed map: keys strictly increase. -/
def SortedKeys (l : List (Nat × String)) : Prop :=
  l.Pairwise (fun a b => a.1 < b.1)

/-! ### Trace semantics for a single thread

A thread interacts with its store only through the four library entry
points.  `Op` is one such call, `step` its effect on the thread store, and
`run` a whole call sequence.  `validFrom n ops` says every `update`/`drop`
in `ops` uses an id held by a handle, i.e. an id below the counter at the
time of the call — which is the only way the Rust API can produce such a
call, since ids live in private handle fields. -/

inductive Op where
  | fixedNew (msg : String)
  | updNew (pfx : String)
  | updUpdate (id : Nat) (text : String)
  | fixedDrop (id : Nat)
  | updDrop
deriving DecidableEq, Repr

/-- Effect of one library call on the thread store. -/
def step (s : Values) : Op → Values
  | .fixedNew msg => (PanicContext.new s msg).2
  | .updNew pfx => (UpdatablePanicContext.new s pfx).2
  | .updUpdate id text => update_entry s id text
  | .fixedDrop id => PanicContext.dropHandle { id := id } s
  | .updDrop => UpdatablePanicContext.dropHandle { id := 0, pfx := "" } s

/-- Run a sequence of library calls. -/
def run (ops : List Op) (s : Values) : Values := ops.foldl step s

/-- Every update/drop in the trace targets an already-allocated id. -/
def validFrom : Nat → List Op → Bool
  | _, [] => true
  | n, .fixedNew _ :: rest => validFrom (n + 1) rest
  | n, .updNew _ :: rest => validFrom (n + 1) rest
  | n, .updUpdate id _ :: rest => decide (id < n) && validFrom n rest
  | n, .fixedDrop id :: rest => decide (id < n) && validFrom n rest
  | n, .updDrop :: rest => validFrom n rest

/-- The ids actually returned by the constructor calls of a trace, in call
order (`PanicContext::new` and `UpdatablePanicContext::new` both return the
freshly allocated id). -/
def assignedIds : List Op → Values → List Nat
  | [], _ => []
  | .fixedNew msg :: rest, s =>
    (PanicContext.new s msg).1.id :: assignedIds rest (step s (.fixedNew msg))
  | .updNew pfx :: rest, s =>
    (UpdatablePanicContext.new s pfx).1.id :: assignedIds rest (step s (.updNew pfx))
  | .updUpdate id text :: rest, s => assignedIds rest (step s (.updUpdate id text))
  | .fixedDrop id :: rest, s => assignedIds rest (step s (.fixedDrop id))
  | .updDrop :: rest, s => assignedIds rest (step s .updDrop)

/-! ### Write-failure model of the hook body

The hook body in `init` performs one `handle.write` for the header, whose
result is discarded by `let _ =`, and then, for each entry, one write of the
entry text and one write of `"\n"` — but those two results are passed
through `.unwrap()` (`let _ = handle.write(..).unwrap();`), which panics if
the write returns `Err`.  `ok i` says whether the i-th write call succeeds;
`Except.error ()` models a panic raised inside the hook. -/

def writeEntriesUnwrap : List (Nat × String) → Nat → (Nat → Bool) → Except Unit Unit
  | [], _, _ => Except.ok ()
  | _ :: rest, n, ok =>
    if ok n then
      if ok (n + 1) then writeEntriesUnwrap rest (n + 2) ok
      else Except.error ()
    else Except.error ()

/-- Run the dump part of the hook against a write-outcome oracle.  Write 0
is the header (`let _ =`, error discarded, never panics); writes 1, 2, …
are the entry/newline writes, each `.unwrap()`ed. -/
def runHookDump (s : Values) (ok : Nat → Bool) : Except Unit Unit :=
  writeEntriesUnwrap s.values 1 ok

/-! ### Process-wide installation state

`INITIALIZED: Mutex<bool>` plus the process panic hook.  The hook is
modelled by the stderr text it produces on a given thread store; `init`
captures the current hook (`panic::take_hook`) and installs the composed
hook (`panic::set_hook`), and `ensure_initialized` guards `init` with the
flag.  The mutex serializes calls, so a call sequence is modelled by
function iteration. -/

structure PanicRuntime where
  initialized : Bool
  hook : Values → String

/-- `fn init()`: captures the previous hook and installs the hook that
dumps the context and then delegates. -/
def init (g : PanicRuntime) : PanicRuntime :=
  let previous_hook := g.hook
  { g with hook := fun s => dumpString s ++ previous_hook s }

/-- `fn ensure_initialized()`: runs `init` and sets the flag, only if the
flag is not yet set. -/
def ensure_initialized (g : PanicRuntime) : PanicRuntime :=
  if g.initialized then g
  else { init g with initialized := true }

/-! ### Lemmas about the ordered-map model -/

theorem mem_btreeInsert (l : List (Nat × String)) (k : Nat) (v : String) :
    ∀ x ∈ btreeInsert l k v, x ∈ l ∨ x = (k, v) := by
  induction l with
  | nil =>
    intro x hx
    simp only [btreeInsert, List.mem_singleton] at hx
    exact Or.inr hx
  | cons hd tl ih =>
    intro x hx
    obtain ⟨k', v'⟩ := hd
    simp only [btreeInsert] at hx
    by_cases h1 : k < k'
    · simp only [if_pos h1, List.mem_cons] at hx
      rcases hx with h | h | h
      · exact Or.inr h
      · exact Or.inl (by simp [h])
      · exact Or.inl (List.mem_cons_of_mem _ h)
    · by_cases h2 : k = k'
      · simp only [if_neg h1, if_pos h2, List.mem_cons] at hx
        rcases hx with h | h
        · exact Or.inr h
        · exact Or.inl (List.mem_cons_of_mem _ h)
      · simp only [if_neg h1, if_neg h2, List.mem_cons] at hx
        rcases hx with h | h
        · exact Or.inl (by simp [h])
        · rcases ih x h with h' | h'
          · exact Or.inl (List.mem_cons_of_mem _ h')
          · exact Or.inr h'

theorem btreeInsert_sorted (l : List (Nat × String)) (k : Nat) (v : String)
    (h : SortedKeys l) : SortedKeys (btreeInsert l k v) := by
  induction l with
  | nil => simp [btreeInsert, SortedKeys]
  | cons hd tl ih =>
    obtain ⟨k', v'⟩ := hd
    rw [SortedKeys, List.pairwise_cons] at h
    obtain ⟨hhead, htl⟩ := h
    simp only [btreeInsert]
    by_cases h1 : k < k'
    · rw [if_pos h1, SortedKeys, List.pairwise_cons]
      refine ⟨?_, ?_⟩
      · intro b hb
        rcases List.mem_cons.mp hb with h | h
        · simp [h, h1]
        · exact lt_trans h1 (hhead b h)
      · rw [SortedKeys] at *
        exact List.pairwise_cons.mpr ⟨hhead, htl⟩
    · by_cases h2 : k = k'
      · rw [if_neg h1, if_pos h2, SortedKeys, List.pairwise_cons]
        exact ⟨fun b hb => h2 ▸ hhead b hb, htl⟩
      · rw [if_neg h1, if_neg h2, SortedKeys, List.pairwise_cons]
        refine ⟨?_, ih htl⟩
        intro b hb
        rcases mem_btreeInsert tl k v b hb with h | h
        · exact hhead b h
        · have : k' < k := by omega
          simp [h, this]

theorem btreeRemove_sublist (l : List (Nat × String)) (k : Nat) :
    List.Sublist (btreeRemove l k) l := by
  induction l with
  | nil => simp [btreeRemove]
  | cons hd tl ih =>
    obtain ⟨k', v'⟩ := hd
    simp only [btreeRemove]
    by_cases h : k = k'
    · rw [if_pos h]
      exact List.sublist_cons_self _ _
    · rw [if_neg h]
      exact List.Sublist.cons₂ _ ih

theorem btreeRemove_sorted (l : List (Nat × String)) (k : Nat)
    (h : SortedKeys l) : SortedKeys (btreeRemove l k) :=
  List.Pairwise.sublist (btreeRemove_sublist l k) h

theorem btreeLookup_insert_self (l : List (Nat × String)) (k : Nat) (v : String) :
    btreeLookup (btreeInsert l k v) k = some v := by
  induction l with
  | nil => simp [btreeInsert, btreeLookup]
  | cons hd tl ih =>
    obtain ⟨k', v'⟩ := hd
    simp only [btreeInsert]
    by_cases h1 : k < k'
    · simp [if_pos h1, btreeLookup]
    · by_cases h2 : k = k'
      · simp [if_neg h1, if_pos h2, btreeLookup]
      · simp [if_neg h1, if_neg h2, btreeLookup, h2, ih]

theorem btreeLookup_insert_ne (l : List (Nat × String)) (k : Nat) (v : String)
    (j : Nat) (h : j ≠ k) :
    btreeLookup (btreeInsert l k v) j = btreeLookup l j := by
  induction l with
  | nil => simp [btreeInsert, btreeLookup, h]
  | cons hd tl ih =>
    obtain ⟨k', v'⟩ := hd
    simp only [btreeInsert]
    by_cases h1 : k < k'
    · simp [if_pos h1, btreeLookup, h]
    · by_cases h2 : k = k'
      · simp only [if_neg h1, if_pos h2, btreeLookup]
        rw [if_neg (h2 ▸ h)]
        rw [if_neg (h2 ▸ h)]
      · simp only [if_neg h1, if_neg h2, btreeLookup]
        by_cases h3 : j = k'
        · simp [if_pos h3]
        · simp [if_neg h3, ih]

theorem btreeLookup_eq_none (l : List (Nat × String)) (k : Nat)
    (h : k ∉ l.map Prod.fst) : btreeLookup l k = none := by
  induction l with
  | nil => simp [btreeLookup]
  | cons hd tl ih =>
    obtain ⟨k', v'⟩ := hd
    simp only [List.map_cons, List.mem_cons, not_or] at h
    simp [btreeLookup, h.1, ih h.2]

theorem btreeLookup_remove_ne (l : List (Nat × String)) (k : Nat) (j : Nat)
    (h : j ≠ k) : btreeLookup (btreeRemove l k) j = btreeLookup l j := by
  induction l with
  | nil => simp [btreeRemove]
  | cons hd tl ih =>
    obtain ⟨k', v'⟩ := hd
    simp only [btreeRemove]
    by_cases h1 : k = k'
    · simp only [if_pos h1, btreeLookup]
      rw [if_neg (h1 ▸ h)]
    · simp only [if_neg h1, btreeLookup]
      by_cases h2 : j = k'
      · simp [if_pos h2]
      · simp [if_neg h2, ih]

theorem keys_btreeRemove_subset (l : List (Nat × String)) (k : Nat) :
    ∀ x ∈ (btreeRemove l k).map Prod.fst, x ∈ l.map Prod.fst := by
  intro x hx
  obtain ⟨kv, hmem, hfst⟩ := List.mem_map.mp hx
  exact List.mem_map.mpr ⟨kv, (btreeRemove_sublist l k).mem hmem, hfst⟩

theorem sortedKeys_nodup (l : List (Nat × String)) (h : SortedKeys l) :
    (l.map Prod.fst).Nodup := by
  rw [SortedKeys] at h
  have : (l.map Prod.fst).Pairwise (fun a b => a < b) :=
    List.pairwise_map.mpr h
  exact this.imp Nat.ne_of_lt

theorem btreeLookup_remove_self (l : List (Nat × String)) (k : Nat)
    (h : (l.map Prod.fst).Nodup) : btreeLookup (btreeRemove l k) k = none := by
  induction l with
  | nil => simp [btreeRemove, btreeLookup]
  | cons hd tl ih =>
    obtain ⟨k', v'⟩ := hd
    simp only [List.map_cons, List.nodup_cons] at h
    simp only [btreeRemove]
    by_cases h1 : k = k'
    · rw [if_pos h1]
      apply btreeLookup_eq_none
      exact h1 ▸ h.1
    · simp [if_neg h1, btreeLookup, h1, ih h.2]

theorem keys_btreeInsert_of_mem (l : List (Nat × String)) (k : Nat) (v : String)
    (hs : SortedKeys l) (hm : k ∈ l.map Prod.fst) :
    (btreeInsert l k v).map Prod.fst = l.map Prod.fst := by
  induction l with
  | nil => simp at hm
  | cons hd tl ih =>
    obtain ⟨k', v'⟩ := hd
    rw [SortedKeys, List.pairwise_cons] at hs
    obtain ⟨hhead, htl⟩ := hs
    simp only [List.map_cons, List.mem_cons] at hm
    simp only [btreeInsert]
    by_cases h1 : k < k'
    · exfalso
      rcases hm with h | h
      · omega
      · obtain ⟨kv, hmem, hfst⟩ := List.mem_map.mp h
        have := hhead kv hmem
        omega
    · by_cases h2 : k = k'
      · simp [if_neg h1, if_pos h2, h2]
      · rw [if_neg h1, if_neg h2]
        simp only [List.map_cons]
        congr 1
        apply ih htl
        rcases hm with h | h
        · exact absurd h h2
        · exact h

theorem keys_btreeInsert_fresh (l : List (Nat × String)) (k : Nat) (v : String)
    (hs : SortedKeys l) (hgt : ∀ kv ∈ l, kv.1 < k) :
    (btreeInsert l k v).map Prod.fst = l.map Prod.fst ++ [k] := by
  induction l with
  | nil => simp [btreeInsert]
  | cons hd tl ih =>
    obtain ⟨k', v'⟩ := hd
    rw [SortedKeys, List.pairwise_cons] at hs
    have hk' : k' < k := hgt (k', v') (List.mem_cons_self _ _)
    simp only [btreeInsert]
    rw [if_neg (by omega), if_neg (by omega)]
    simp only [List.map_cons, List.cons_append]
    congr 1
    exact ih hs.2 (fun kv hm => hgt kv (List.mem_cons_of_mem _ hm))

theorem step_next_id_le (s : Values) (op : Op) :
    s.next_id ≤ (step s op).next_id := by
  cases op <;>
    simp [step, PanicContext.new, UpdatablePanicContext.new, add_entry,
      update_entry, PanicContext.dropHandle, UpdatablePanicContext.dropHandle]

theorem assignedIds_lb (ops : List Op) (s : Values) :
    ∀ x ∈ assignedIds ops s, s.next_id ≤ x := by
  induction ops generalizing s with
  | nil => simp [assignedIds]
  | cons op rest ih =>
    intro x hx
    have hstep := step_next_id_le s op
    cases op with
    | fixedNew msg =>
      simp only [assignedIds, List.mem_cons] at hx
      rcases hx with h | h
      · simp [h, PanicContext.new]
      · exact le_trans hstep (ih _ x h)
    | updNew pfx =>
      simp only [assignedIds, List.mem_cons] at hx
      rcases hx with h | h
      · simp [h, UpdatablePanicContext.new, add_entry]
      · exact le_trans hstep (ih _ x h)
    | updUpdate id text =>
      exact le_trans hstep (ih _ x hx)
    | fixedDrop id =>
      exact le_trans hstep (ih _ x hx)
    | updDrop =>
      exact le_trans hstep (ih _ x hx)

theorem assignedIds_pairwise (ops : List Op) (s : Values) :
    (assignedIds ops s).Pairwise (fun a b => a < b) := by
  induction ops generalizing s with
  | nil => simp [assignedIds]
  | cons op rest ih =>
    cases op with
    | fixedNew msg =>
      simp only [assignedIds]
      refine List.pairwise_cons.mpr ⟨?_, ih _⟩
      intro b hb
      have := assignedIds_lb rest (step s (.fixedNew msg)) b hb
      have hnext : (step s (Op.fixedNew msg)).next_id = s.next_id + 1 := by
        simp [step, PanicContext.new]
      simp only [PanicContext.new]
      omega
    | updNew pfx =>
      simp only [assignedIds]
      refine List.pairwise_cons.mpr ⟨?_, ih _⟩
      intro b hb
      have := assignedIds_lb rest (step s (.updNew pfx)) b hb
      have hnext : (step s (Op.updNew pfx)).next_id = s.next_id + 1 := by
        simp [step, UpdatablePanicContext.new, add_entry]
      simp only [UpdatablePanicContext.new, add_entry]
      omega
    | updUpdate id text => exact ih _
    | fixedDrop id => exact ih _
    | updDrop => exact ih _

/-- One step preserves well-formedness, provided an `update`/`drop` targets
an id below the counter (always true when the id comes from a handle). -/
theorem step_WF (s : Values) (op : Op) (h : s.WF)
    (hv : ∀ id text, (op = Op.updUpdate id text → id < s.next_id)
      ∧ (op = Op.fixedDrop id → id < s.next_id)) : (step s op).WF := by
  obtain ⟨hsort, hbound⟩ := h
  cases op with
  | fixedNew msg =>
    refine ⟨btreeInsert_sorted _ _ _ hsort, ?_⟩
    intro kv hkv
    rcases mem_btreeInsert _ _ _ kv hkv with hm | hm
    · have := hbound kv hm
      simp only [step, PanicContext.new]
      omega
    · simp [step, PanicContext.new, hm]
  | updNew pfx =>
    refine ⟨hsort, ?_⟩
    intro kv hkv
    have := hbound kv hkv
    simp only [step, UpdatablePanicContext.new, add_entry] at *
    omega
  | updUpdate id text =>
    have hid : id < s.next_id := ((hv id text).1) rfl
    refine ⟨btreeInsert_sorted _ _ _ hsort, ?_⟩
    intro kv hkv
    rcases mem_btreeInsert _ _ _ kv hkv with hm | hm
    · exact hbound kv hm
    · simp [step, update_entry, hm, hid]
  | fixedDrop id =>
    refine ⟨List.Pairwise.sublist (btreeRemove_sublist _ _) hsort, ?_⟩
    intro kv hkv
    exact hbound kv ((btreeRemove_sublist _ _).mem hkv)
  | updDrop =>
    exact ⟨hsort, hbound⟩

/-- Any valid call sequence preserves well-formedness of the thread store. -/
theorem run_WF (ops : List Op) (s : Values) (h : s.WF)
    (hv : validFrom s.next_id ops = true) : (run ops s).WF := by
  induction ops generalizing s with
  | nil => exact h
  | cons op rest ih =>
    have hrun : run (op :: rest) s = run rest (step s op) := by
      simp [run, List.foldl_cons]
    rw [hrun]
    cases op with
    | fixedNew msg =>
      simp only [validFrom] at hv
      apply ih
      · exact step_WF s _ h (by simp)
      · have : (step s (Op.fixedNew msg)).next_id = s.next_id + 1 := by
          simp [step, PanicContext.new]
        rw [this]
        exact hv
    | updNew pfx =>
      simp only [validFrom] at hv
      apply ih
      · exact step_WF s _ h (by simp)
      · have : (step s (Op.updNew pfx)).next_id = s.next_id + 1 := by
          simp [step, UpdatablePanicContext.new, add_entry]
        rw [this]
        exact hv
    | updUpdate id text =>
      simp only [validFrom, Bool.and_eq_true, decide_eq_true_eq] at hv
      apply ih
      · exact step_WF s _ h (by simp [hv.1])
      · have : (step s (Op.updUpdate id text)).next_id = s.next_id := by
          simp [step, update_entry]
        rw [this]
        exact hv.2
    | fixedDrop id =>
      simp only [validFrom, Bool.and_eq_true, decide_eq_true_eq] at hv
      apply ih
      · exact step_WF s _ h (by simp [hv.1])
      · have : (step s (Op.fixedDrop id)).next_id = s.next_id := by
          simp [step, PanicContext.dropHandle]
        rw [this]
        exact hv.2
    | updDrop =>
      simp only [validFrom] at hv
      apply ih
      · exact step_WF s _ h (by simp)
      · have : (step s Op.updDrop).next_id = s.next_id := by
          simp [step, UpdatablePanicContext.dropHandle]
        rw [this]
        exact hv

theorem ensure_initialized_initialized (g : PanicRuntime) :
    (ensure_initialized g).initialized = true := by
  by_cases h : g.initialized <;> simp [ensure_initialized, h]

theorem ensure_initialized_idem (g : PanicRuntime) :
    ensure_initialized (ensure_initialized g) = ensure_initialized g := by
  by_cases hg : g.initialized <;> simp [ensure_initialized, hg]

theorem ensure_initialized_iterate (g : PanicRuntime) (m : Nat) :
    ensure_initialized^[m] (ensure_initialized g) = ensure_initialized g := by
  induction m with
  | zero => rfl
  | succ k ih =>
    rw [Function.iterate_succ_apply, ensure_initialized_idem]
    exact ih

/-! ### Dump-output lemmas -/

theorem dump_foldl_append (l : List (Nat × String)) (acc : String) :
    l.foldl (fun a kv => a ++ kv.2 ++ "\n") acc
      = acc ++ l.foldr (fun kv r => kv.2 ++ "\n" ++ r) "" := by
  induction l generalizing acc with
  | nil => simp [String.append_empty]
  | cons hd tl ih =>
    simp only [List.foldl_cons, List.foldr_cons, ih]
    rw [String.append_assoc, String.append_assoc, String.append_assoc]

theorem dumpString_eq_spec (s : Values) (prev : String) :
    hookOutput s prev = specDumpOutput (s.values.map Prod.snd) prev := by
  rw [hookOutput, dumpString, specDumpOutput, dump_foldl_append,
    List.foldr_map, String.append_assoc]

theorem mem_keys_btreeLookup (l : List (Nat × String)) (k : Nat)
    (h : k ∈ l.map Prod.fst) : btreeLookup l k ≠ none := by
  induction l with
  | nil => simp at h
  | cons hd tl ih =>
    obtain ⟨k', v'⟩ := hd
    simp only [List.map_cons, List.mem_cons] at h
    by_cases hk : k = k'
    · simp [btreeLookup, hk]
    · rcases h with h | h
      · exact absurd h hk
      · simp [btreeLookup, hk, ih h]

/-! ### Claim theorems -/

/-- C1: on abnormal termination the installed hook writes exactly the fixed
header line `"Panic context:"`, then one line per currently live entry of
the failing thread's store in ascending id order (their keys are strictly
increasing), and then the previously registered handler's report follows;
with no live entries only the header precedes the delegated report. -/
theorem C1_dump_format (s : Values) (prev : String) (h : s.WF) :
    hookOutput s prev = specDumpOutput (s.values.map Prod.snd) prev
    ∧ (s.values.map Prod.fst).Pairwise (fun a b => a < b)
    ∧ (s.values = [] → hookOutput s prev = "Panic context:\n" ++ prev) := by
  obtain ⟨hsort, _⟩ := h
  refine ⟨dumpString_eq_spec s prev, List.pairwise_map.mpr hsort, ?_⟩
  intro hnil
  rw [dumpString_eq_spec s prev, hnil]
  simp [specDumpOutput, String.append_empty]

theorem C1_dump_format_witness :
    Values.WF { next_id := 2, values := [(0, "i=2"), (1, "j=4")] }
    ∧ hookOutput { next_id := 2, values := [(0, "i=2"), (1, "j=4")] } "boom"
      = specDumpOutput ([(0, "i=2"), (1, "j=4")].map Prod.snd) "boom" :=
  have hwf : Values.WF { next_id := 2, values := [(0, "i=2"), (1, "j=4")] } :=
    ⟨by decide, by decide⟩
  ⟨hwf, (C1_dump_format _ "boom" hwf).1⟩

/-- C2 (refuting the claim, exhibiting the code bug): in the hook body the
entry and newline writes are `.unwrap()`ed (`let _ = handle.write(..).unwrap()`),
so with one live entry and a failing write the dump raises a secondary
panic instead of discarding the error; only the header write (whose result
is discarded without `unwrap`) can never panic, as the empty-store case
shows. -/
theorem C2_entry_write_unwrap_panics :
    runHookDump { next_id := 1, values := [(0, "x")] } (fun _ => false)
      = Except.error ()
    ∧ (∀ ok, runHookDump { next_id := 0, values := [] } ok = Except.ok ()) :=
  ⟨rfl, fun _ => rfl⟩

/-- C3: releasing an updatable handle performs no removal — the store after
the handle's scope ends is exactly the store before, any present entry for
the handle's id keeps its value, and later dumps are unchanged. -/
theorem C3_updatable_release_frame (c : UpdatablePanicContext) (s : Values)
    (v : String) (h : btreeLookup s.values c.id = some v) :
    c.dropHandle s = s
    ∧ btreeLookup (c.dropHandle s).values c.id = some v
    ∧ dumpString (c.dropHandle s) = dumpString s :=
  ⟨rfl, h, rfl⟩

theorem C3_updatable_release_frame_witness :
    btreeLookup [(0, "step: x")] 0 = some "step: x"
    ∧ UpdatablePanicContext.dropHandle { id := 0, pfx := "step: " }
        { next_id := 1, values := [(0, "step: x")] }
      = { next_id := 1, values := [(0, "step: x")] } :=
  ⟨by decide,
    (C3_updatable_release_frame { id := 0, pfx := "step: " }
      { next_id := 1, values := [(0, "step: x")] } "step: x" (by decide)).1⟩

/-- C4: along any sequence of library calls of one thread (each update/drop
using an id held by a handle), the ids returned by the constructors are
strictly increasing in call order, no id is returned twice, and the final
store iterates its entries with strictly increasing keys — oldest creation
first — regardless of the updates performed. -/
theorem C4_id_allocation (ops : List Op) (h : validFrom 0 ops = true) :
    (assignedIds ops initialValues).Pairwise (fun a b => a < b)
    ∧ (assignedIds ops initialValues).Nodup
    ∧ ((run ops initialValues).values.map Prod.fst).Pairwise (fun a b => a < b) := by
  have hp := assignedIds_pairwise ops initialValues
  have hwf : (run ops initialValues).WF := by
    apply run_WF
    · exact ⟨List.Pairwise.nil, by simp [initialValues]⟩
    · simpa [initialValues] using h
  obtain ⟨hsort, _⟩ := hwf
  exact ⟨hp, hp.imp (fun hab => Nat.ne_of_lt hab), List.pairwise_map.mpr hsort⟩

theorem C4_id_allocation_witness :
    validFrom 0
      [Op.fixedNew "i=2", Op.updNew "step: ", Op.updUpdate 1 "step: a",
        Op.fixedDrop 0, Op.fixedNew "j=4"] = true
    ∧ (assignedIds
        [Op.fixedNew "i=2", Op.updNew "step: ", Op.updUpdate 1 "step: a",
          Op.fixedDrop 0, Op.fixedNew "j=4"] initialValues).Pairwise
        (fun a b => a < b) :=
  ⟨by decide,
    (C4_id_allocation
      [Op.fixedNew "i=2", Op.updNew "step: ", Op.updUpdate 1 "step: a",
        Op.fixedDrop 0, Op.fixedNew "j=4"] (by decide)).1⟩

/-- C5: `update(v)` stores `prefix ++ v` at the handle's id, overwriting the
previous text there and touching no other id; the key list — hence the
entry's position in iteration order — is unchanged, and after two updates
only the last value is stored. -/
theorem C5_update_semantics (c : UpdatablePanicContext) (s : Values)
    (v w : String) (hs : s.WF) (hm : c.id ∈ s.values.map Prod.fst) :
    btreeLookup (c.update s v).values c.id = some (c.pfx ++ v)
    ∧ (∀ j, j ≠ c.id → btreeLookup (c.update s v).values j = btreeLookup s.values j)
    ∧ (c.update s v).values.map Prod.fst = s.values.map Prod.fst
    ∧ btreeLookup (c.update (c.update s v) w).values c.id = some (c.pfx ++ w) := by
  obtain ⟨hsort, _⟩ := hs
  refine ⟨btreeLookup_insert_self _ _ _, ?_, ?_, btreeLookup_insert_self _ _ _⟩
  · intro j hj
    exact btreeLookup_insert_ne _ _ _ _ hj
  · exact keys_btreeInsert_of_mem _ _ _ hsort hm

theorem C5_update_semantics_witness :
    (Values.WF { next_id := 1, values := [(0, "step: a")] }
      ∧ 0 ∈ ([(0, "step: a")] : List (Nat × String)).map Prod.fst)
    ∧ btreeLookup
        (UpdatablePanicContext.update { id := 0, pfx := "step: " }
          { next_id := 1, values := [(0, "step: a")] } "compilation").values 0
      = some ("step: " ++ "compilation") :=
  have hwf : Values.WF { next_id := 1, values := [(0, "step: a")] } :=
    ⟨by decide, by decide⟩
  ⟨⟨hwf, by decide⟩,
    (C5_update_semantics { id := 0, pfx := "step: " }
      { next_id := 1, values := [(0, "step: a")] } "compilation" "x" hwf
      (by decide)).1⟩

/-- C6: a fixed-message handle created on some store, once its scope ends
and its `Drop` runs on the (well-formed) store current at that moment,
leaves no entry for its id: the lookup misses and the id is absent from the
iterated keys, so a later dump has no line for it. -/
theorem C6_fixed_scope_release (s t : Values) (msg : String) (ht : t.WF) :
    btreeLookup ((PanicContext.new s msg).1.dropHandle t).values
      (PanicContext.new s msg).1.id = none
    ∧ (PanicContext.new s msg).1.id ∉
        ((PanicContext.new s msg).1.dropHandle t).values.map Prod.fst := by
  obtain ⟨hsort, _⟩ := ht
  have hnone : btreeLookup ((PanicContext.new s msg).1.dropHandle t).values
      (PanicContext.new s msg).1.id = none :=
    btreeLookup_remove_self _ _ (sortedKeys_nodup _ hsort)
  refine ⟨hnone, fun hmem => ?_⟩
  exact mem_keys_btreeLookup _ _ hmem hnone

theorem C6_fixed_scope_release_witness :
    Values.WF { next_id := 1, values := [(0, "i=2")] }
    ∧ btreeLookup
        ((PanicContext.new initialValues "i=2").1.dropHandle
          { next_id := 1, values := [(0, "i=2")] }).values
        (PanicContext.new initialValues "i=2").1.id = none :=
  have hwf : Values.WF { next_id := 1, values := [(0, "i=2")] } :=
    ⟨by decide, by decide⟩
  ⟨hwf, (C6_fixed_scope_release initialValues _ "i=2" hwf).1⟩

/-- C7: constructing an updatable handle inserts nothing — the map is
exactly the one before the call, the fresh id has no entry, and a dump at
that point prints the same text as before. -/
theorem C7_updatable_new_inserts_nothing (s : Values) (pfx : String) (h : s.WF) :
    (UpdatablePanicContext.new s pfx).2.values = s.values
    ∧ btreeLookup (UpdatablePanicContext.new s pfx).2.values
        (UpdatablePanicContext.new s pfx).1.id = none
    ∧ dumpString (UpdatablePanicContext.new s pfx).2 = dumpString s := by
  obtain ⟨_, hbound⟩ := h
  refine ⟨rfl, ?_, rfl⟩
  apply btreeLookup_eq_none
  intro hmem
  obtain ⟨kv, hkv, hfst⟩ := List.mem_map.mp hmem
  have hlt := hbound kv hkv
  simp only [UpdatablePanicContext.new, add_entry] at hfst
  omega

theorem C7_updatable_new_inserts_nothing_witness :
    Values.WF { next_id := 1, values := [(0, "i=2")] }
    ∧ btreeLookup
        (UpdatablePanicContext.new { next_id := 1, values := [(0, "i=2")] }
          "step: ").2.values
        (UpdatablePanicContext.new { next_id := 1, values := [(0, "i=2")] }
          "step: ").1.id = none :=
  have hwf : Values.WF { next_id := 1, values := [(0, "i=2")] } :=
    ⟨by decide, by decide⟩
  ⟨hwf, (C7_updatable_new_inserts_nothing _ "step: " hwf).2.1⟩

/-- C8: `ensure_initialized` is idempotent — any n ≥ 1 calls leave exactly
the state of one call, the flag is set after the first call, and when the
flag was unset the installed hook is the dump composed (once) with the
previously registered handler, so no output line is ever duplicated. -/
theorem C8_idempotent_install (g : PanicRuntime) (n : Nat) (h : 1 ≤ n) :
    ensure_initialized^[n] g = ensure_initialized g
    ∧ (ensure_initialized^[n] g).initialized = true
    ∧ (g.initialized = false →
        ∀ s, (ensure_initialized^[n] g).hook s = dumpString s ++ g.hook s) := by
  obtain ⟨m, rfl⟩ : ∃ m, n = m + 1 := ⟨n - 1, by omega⟩
  have hn : ensure_initialized^[m + 1] g = ensure_initialized g := by
    rw [Function.iterate_succ_apply]
    exact ensure_initialized_iterate g m
  refine ⟨hn, by rw [hn]; exact ensure_initialized_initialized g, ?_⟩
  intro hg s
  rw [hn]
  simp [ensure_initialized, hg, init]

theorem C8_idempotent_install_witness :
    1 ≤ 3
    ∧ ensure_initialized^[3] { initialized := false, hook := fun _ => "boom" }
      = ensure_initialized { initialized := false, hook := fun _ => "boom" } :=
  ⟨by decide,
    (C8_idempotent_install { initialized := false, hook := fun _ => "boom" } 3
      (by decide)).1⟩

/-- C9: dropping a fixed-message handle touches only its own slot — the
counter is unchanged, every other id's lookup is unchanged, the handle's
own id maps to nothing afterwards, and a handle created after the release
gets an id colliding with no surviving entry. -/
theorem C9_fixed_drop_frame (c : PanicContext) (s : Values) (h : s.WF) :
    (c.dropHandle s).next_id = s.next_id
    ∧ (∀ j, j ≠ c.id →
        btreeLookup (c.dropHandle s).values j = btreeLookup s.values j)
    ∧ btreeLookup (c.dropHandle s).values c.id = none
    ∧ ∀ msg, (PanicContext.new (c.dropHandle s) msg).1.id ∉
        (c.dropHandle s).values.map Prod.fst := by
  obtain ⟨hsort, hbound⟩ := h
  refine ⟨rfl, ?_, ?_, ?_⟩
  · intro j hj
    exact btreeLookup_remove_ne _ _ _ hj
  · exact btreeLookup_remove_self _ _ (sortedKeys_nodup _ hsort)
  · intro msg hmem
    obtain ⟨kv, hkv, hfst⟩ := List.mem_map.mp hmem
    have hsub := (btreeRemove_sublist s.values c.id).mem hkv
    have hlt := hbound kv hsub
    simp only [PanicContext.new, PanicContext.dropHandle] at hfst
    omega

theorem C9_fixed_drop_frame_witness :
    Values.WF { next_id := 2, values := [(0, "i=2"), (1, "j=4")] }
    ∧ btreeLookup
        (PanicContext.dropHandle { id := 0 }
          { next_id := 2, values := [(0, "i=2"), (1, "j=4")] }).values 1
      = btreeLookup [(0, "i=2"), (1, "j=4")] 1 :=
  have hwf : Values.WF { next_id := 2, values := [(0, "i=2"), (1, "j=4")] } :=
    ⟨by decide, by decide⟩
  ⟨hwf,
    (C9_fixed_drop_frame { id := 0 }
      { next_id := 2, values := [(0, "i=2"), (1, "j=4")] } hwf).2.1 1
      (by decide)⟩

/-- C10: the dump writes each text verbatim followed by one newline, so two
different well-formed stores — one entry containing an embedded newline
versus two entries holding its halves — produce byte-for-byte the same
output: the dump does not determine the set of live entries. -/
theorem C10_dump_not_injective :
    dumpString { next_id := 1, values := [(0, "a\nb")] }
      = "Panic context:\na\nb\n"
    ∧ dumpString { next_id := 1, values := [(0, "a\nb")] }
      = dumpString { next_id := 2, values := [(0, "a"), (1, "b")] }
    ∧ ({ next_id := 1, values := [(0, "a\nb")] } : Values).values
      ≠ ({ next_id := 2, values := [(0, "a"), (1, "b")] } : Values).values
    ∧ Values.WF { next_id := 1, values := [(0, "a\nb")] }
    ∧ Values.WF { next_id := 2, values := [(0, "a"), (1, "b")] } :=
  ⟨rfl, rfl, by decide, ⟨by decide, by decide⟩, ⟨by decide, by decide⟩⟩
